import Mathlib

/-!
Verification of the weight space / weight lattice module
(`sage/combinat/root_system/weight_space.py`).

The Python class `WeightSpace` is a `CombinatorialFreeModule` over a base
ring `R`, with basis indexed by the index set of a root system, extended by
one extra basis label "delta" when the space is an extended affine weight
lattice.  Elements are canonical sparse mappings from basis keys to nonzero
coefficients.  We embed:

* basis keys as the inductive type `BKey` (a Dynkin node label, which in the
  concrete Cartan types is an integer, or the extra label "delta");
* the combinatorial data supplied by the root-system / Cartan-type
  collaborators as the record `RootSystemData` (index set, Dynkin diagram
  column lookup, special node, affine flag, dual-side flag);
* free-module elements as the structure `Elt`: a coefficient function
  together with its exact (finite) support, mirroring the sparse dictionary
  of `CombinatorialFreeModule` whose keys are precisely the nonzero
  coefficients;
* each method of `WeightSpace` / `WeightSpaceElement` as a Lean function,
  with the Python `raise` statements becoming `Except.error` values of the
  error taxonomy `Err`.
-/

/-- A basis key of the (possibly extended) weight space: either a node of
the Dynkin diagram index set (an integer label in the concrete Cartan
types), or the extra string key "delta" used to extend affine weight
lattices. -/
inductive BKey where
  | node (i : ℤ)
  | delta
  deriving DecidableEq

/-- Error taxonomy of the module.  The Python code raises `ValueError` /
`TypeError` / `KeyError`; the specification classifies those sites as
`InvalidConfiguration` (extended space requested for a non-affine type),
`InvalidKey` (index lookup miss), `UnsupportedOperation` (delta for a
non-affine type, ambient map on the dual side), and `InvalidArgument`
(scalar pairing against an element outside the coroot space). -/
inductive Err where
  | InvalidConfiguration
  | InvalidKey
  | UnsupportedOperation
  | InvalidArgument
  deriving DecidableEq

/-- An element of a combinatorial free module with basis keys `BKey` and
coefficients in `R`, in canonical sparse form: the total coefficient
function together with its support, which consists exactly of the keys with
nonzero coefficient.  This mirrors the sparse dictionary representation of
`CombinatorialFreeModule.Element`, whose stored keys are precisely the
nonzero coefficients. -/
structure Elt (R : Type) [Zero R] where
  coeff : BKey → R
  supp : Finset BKey
  mem_supp : ∀ k, k ∈ supp ↔ coeff k ≠ 0

namespace Elt

variable {R : Type} [CommRing R] [DecidableEq R]

/-- Build a canonical sparse element from a coefficient function and a
finite overapproximation of its support. -/
def ofFun (f : BKey → R) (dom : Finset BKey) (h : ∀ k, f k ≠ 0 → k ∈ dom) : Elt R :=
  ⟨f, dom.filter (fun k => f k ≠ 0), by
    intro k
    simp only [Finset.mem_filter]
    exact ⟨fun hk => hk.2, fun hk => ⟨h k hk, hk⟩⟩⟩

@[simp] theorem coeff_ofFun (f : BKey → R) (dom : Finset BKey) (h : ∀ k, f k ≠ 0 → k ∈ dom)
    (k : BKey) : (ofFun f dom h).coeff k = f k := rfl

theorem coeff_eq_zero_of_not_mem {x : Elt R} {k : BKey} (h : k ∉ x.supp) : x.coeff k = 0 := by
  by_contra hc
  exact h ((x.mem_supp k).mpr hc)

/-- Two canonical sparse elements with the same coefficient function are
equal: the support is determined by the coefficients. -/
theorem eq_of_coeff {x y : Elt R} (h : x.coeff = y.coeff) : x = y := by
  cases x with
  | mk cx sx hx =>
    cases y with
    | mk cy sy hy =>
      simp only at h
      subst h
      have hs : sx = sy := Finset.ext (fun k => (hx k).trans (hy k).symm)
      subst hs
      rfl

instance : Zero (Elt R) :=
  ⟨ofFun (fun _ => 0) ∅ (by intro k hk; exact absurd rfl hk)⟩

@[simp] theorem coeff_zero (k : BKey) : (0 : Elt R).coeff k = 0 := rfl

/-- The basis monomial with key `k` and coefficient `c` (the module
`monomial` / `term` constructor). -/
def single (k : BKey) (c : R) : Elt R :=
  ofFun (fun m => if m = k then c else 0) {k} (by
    intro m hm
    by_cases h : m = k
    · simp [h]
    · simp [h] at hm)

@[simp] theorem coeff_single (k m : BKey) (c : R) :
    (single k c).coeff m = if m = k then c else 0 := rfl

theorem coeff_single_self (k : BKey) (c : R) : (single k c).coeff k = c := by simp

theorem supp_single {c : R} (k : BKey) (h : c ≠ 0) : (single k c).supp = {k} := by
  apply Finset.ext
  intro m
  by_cases hm : m = k <;> simp [single, ofFun, hm, h]

instance : Add (Elt R) :=
  ⟨fun x y => ofFun (fun k => x.coeff k + y.coeff k) (x.supp ∪ y.supp) (by
    intro k hk
    rcases Decidable.em (x.coeff k = 0) with hx | hx
    · have hy : y.coeff k ≠ 0 := by
        intro hy
        apply hk
        show x.coeff k + y.coeff k = 0
        rw [hx, hy, add_zero]
      exact Finset.mem_union_right _ ((y.mem_supp k).mpr hy)
    · exact Finset.mem_union_left _ ((x.mem_supp k).mpr hx))⟩

@[simp] theorem coeff_add (x y : Elt R) (k : BKey) :
    (x + y).coeff k = x.coeff k + y.coeff k := rfl

instance : SMul R (Elt R) :=
  ⟨fun c x => ofFun (fun k => c * x.coeff k) x.supp (by
    intro k hk
    refine (x.mem_supp k).mpr (fun hx => hk ?_)
    show c * x.coeff k = 0
    rw [hx, mul_zero])⟩

@[simp] theorem coeff_smul (c : R) (x : Elt R) (k : BKey) :
    (c • x).coeff k = c * x.coeff k := rfl

instance : AddCommMonoid (Elt R) where
  add_assoc a b c := eq_of_coeff (funext fun k => by simp [add_assoc])
  zero_add a := eq_of_coeff (funext fun k => by simp)
  add_zero a := eq_of_coeff (funext fun k => by simp)
  add_comm a b := eq_of_coeff (funext fun k => by simp [add_comm])
  nsmul := nsmulRec

instance : Module R (Elt R) where
  one_smul x := eq_of_coeff (funext fun k => by simp)
  mul_smul a b x := eq_of_coeff (funext fun k => by simp [mul_assoc])
  smul_zero a := eq_of_coeff (funext fun k => by simp)
  smul_add a x y := eq_of_coeff (funext fun k => by simp [mul_add])
  add_smul a b x := eq_of_coeff (funext fun k => by simp [add_mul])
  zero_smul x := eq_of_coeff (funext fun k => by simp)

/-- Reading off the coefficient at a fixed key is additive. -/
def coeffHom (k : BKey) : Elt R →+ R :=
  ⟨⟨fun x => x.coeff k, rfl⟩, fun _ _ => rfl⟩

theorem smul_single_one (k : BKey) (c : R) : c • single k (1 : R) = single k c :=
  eq_of_coeff (funext fun m => by by_cases hm : m = k <;> simp [hm])

/-- `sum_of_terms`: build an element from a list of (key, coefficient)
terms, as `CombinatorialFreeModule.sum_of_terms` does (duplicate keys are
merged and zero coefficients dropped by the canonical representation). -/
def sum_of_terms (l : List (BKey × R)) : Elt R :=
  (l.map (fun p => single p.1 p.2)).sum

end Elt

/-- The combinatorial data that the `root_system` / Cartan-type
collaborators supply to `WeightSpace` (spec section 6): the ordered index
set of the Dynkin diagram, the column lookup of the Dynkin diagram (the
list of pairs `(i, a_ij)` of the nonzero entries of column `j` of the
Cartan matrix, as returned by `root_system.dynkin_diagram().column(j)`),
the special node of an affine Cartan type, the affine classification
predicate, and the dual-side flag distinguishing coweight models. -/
structure RootSystemData where
  index_set : List ℤ
  column : ℤ → List (ℤ × ℤ)
  special_node : ℤ
  is_affine : Bool
  dual_side : Bool

/-- The `WeightSpace` model: the root-system collaborator plus the
`extended` flag (`self.root_system` and `self._extended` in the source). -/
structure WeightSpace where
  root_system : RootSystemData
  extended : Bool

/-- `WeightSpace.__init__`: validates that an extended space is only built
over an affine root system (raising `ValueError`, classified
`InvalidConfiguration`) and otherwise produces the model. -/
def WeightSpace.make (root_system : RootSystemData) (extended : Bool) :
    Except Err WeightSpace :=
  if extended && !root_system.is_affine then Except.error Err.InvalidConfiguration
  else Except.ok ⟨root_system, extended⟩

/-- The basis keys computed by `WeightSpace.__init__`: the index set of the
root system, with the extra key "delta" appended when `extended` is set. -/
def WeightSpace.basis_keys (W : WeightSpace) : List BKey :=
  W.root_system.index_set.map BKey.node ++ (if W.extended then [BKey.delta] else [])

/-- `WeightSpace.fundamental_weight(i)`.  For the key "delta": raises
(`UnsupportedOperation`) unless the type is affine, returns the "delta"
basis monomial in the extended case and the zero element otherwise.  For a
node key: raises (`InvalidKey`) when the node is not in the index set, and
otherwise returns the basis monomial of that node. -/
def fundamental_weight (R : Type) [CommRing R] [DecidableEq R]
    (W : WeightSpace) (i : BKey) : Except Err (Elt R) :=
  match i with
  | BKey.delta =>
      if !W.root_system.is_affine then Except.error Err.UnsupportedOperation
      else if W.extended then Except.ok (Elt.single BKey.delta 1)
      else Except.ok 0
  | BKey.node n =>
      if n ∈ W.root_system.index_set then Except.ok (Elt.single (BKey.node n) 1)
      else Except.error Err.InvalidKey

/-- `WeightSpace.simple_root(j)`: raises (`InvalidKey`) when `j` is not in
the index set; otherwise builds `sum_of_terms` of the Dynkin diagram column
of `j` (coefficients cast from the integers into the base ring), and, when
the space is extended and `j` is the special node, adds the "delta"
monomial. -/
def simple_root (R : Type) [CommRing R] [DecidableEq R]
    (W : WeightSpace) (j : ℤ) : Except Err (Elt R) :=
  if j ∈ W.root_system.index_set then
    let result : Elt R :=
      Elt.sum_of_terms ((W.root_system.column j).map (fun p => (BKey.node p.1, (p.2 : R))))
    if W.extended = true ∧ j = W.root_system.special_node then
      Except.ok (result + Elt.single BKey.delta 1)
    else Except.ok result
  else Except.error Err.InvalidKey

/-- The basis keys of the coroot lattice / coroot space collaborator of the
parent: the node keys of the index set (the simple coroots index them). -/
def node_keys (rs : RootSystemData) : Finset BKey :=
  (rs.index_set.map BKey.node).toFinset

/-- Structural membership of an element in the coroot space of the parent
(collaborator test, spec section 6): the element must be supported on the
basis keys of the coroot space, i.e. on the node keys of the index set. -/
def coroot_space_mem (R : Type) [CommRing R] [DecidableEq R]
    (rs : RootSystemData) (y : Elt R) : Bool :=
  decide (y.supp ⊆ node_keys rs)

/-- Structural membership of an element in the coroot lattice of the parent
(collaborator test).  The coroot lattice has the same basis keys as the
coroot space; in this embedding, where elements already carry coefficients
in the ambient base ring, the structural test is the same support
condition. -/
def coroot_lattice_mem (R : Type) [CommRing R] [DecidableEq R]
    (rs : RootSystemData) (y : Elt R) : Bool :=
  decide (y.supp ⊆ node_keys rs)

/-- `WeightSpaceElement.scalar`: the canonical pairing of `x` (an element
of the weight space `W`) with `lambdacheck = y`.  Raises (`InvalidArgument`)
when `y` is neither in the coroot lattice nor in the coroot space of the
parent.  Otherwise iterates over the sparse entries of whichever operand
has fewer nonzero entries (`len(self) < len(lambdacheck)`), looking the key
up in the other operand, accumulating from the zero of the base ring. -/
def scalar (R : Type) [CommRing R] [DecidableEq R]
    (W : WeightSpace) (x y : Elt R) : Except Err R :=
  if !(coroot_lattice_mem R W.root_system y || coroot_space_mem R W.root_system y) then
    Except.error Err.InvalidArgument
  else if x.supp.card < y.supp.card then
    Except.ok (Finset.sum x.supp (fun i => y.coeff i * x.coeff i))
  else
    Except.ok (Finset.sum y.supp (fun i => x.coeff i * y.coeff i))

/-- A simple coroot of the coroot lattice collaborator: in the root lattice
of the dual root system, the simple (co)roots are exactly the basis
monomials, so `simple_coroot j` is the monomial with key `j`. -/
def simple_coroot (R : Type) [CommRing R] [DecidableEq R] (j : ℤ) : Elt R :=
  Elt.single (BKey.node j) 1

/-- `WeightSpaceElement.is_dominant`: all coefficients at the index-set
keys of the parent are nonnegative (keys outside the index set, such as
"delta", are not consulted). -/
def is_dominant (R : Type) [CommRing R] [DecidableEq R] [LinearOrder R]
    (W : WeightSpace) (x : Elt R) : Bool :=
  W.root_system.index_set.all (fun i => decide (0 ≤ x.coeff (BKey.node i)))

/-- `WeightSpace._to_classical_on_basis(i)`: the projection onto the
classical space, on basis keys.  The classical-space collaborator is a
combinatorial free module as well, so its zero element and basis monomials
are modelled by the same `Elt` machinery. -/
def to_classical_on_basis (R : Type) [CommRing R] [DecidableEq R]
    (W : WeightSpace) (i : BKey) : Elt R :=
  if i = BKey.delta ∨ i = BKey.node W.root_system.special_node then 0
  else Elt.single i 1

/-- The generic `module_morphism(on_basis, codomain)` builder of the
free-module collaborator: the linear extension of a map on basis keys,
`x ↦ Σ x.coeff k • f k` over the support of `x`. -/
def module_morphism (R : Type) [CommRing R] [DecidableEq R]
    (M : Type) [AddCommMonoid M] [Module R M] (f : BKey → M) (x : Elt R) : M :=
  Finset.sum x.supp (fun k => x.coeff k • f k)

/-- `WeightSpace.to_ambient_space_morphism`: raises (`UnsupportedOperation`,
a `TypeError` in the source) on the dual side; otherwise the module
morphism sending each basis key to the fundamental weight of the same index
in the ambient space collaborator, whose fundamental-weight family is the
parameter `ambient_fw`. -/
def to_ambient_space_morphism (R : Type) [CommRing R] [DecidableEq R]
    (M : Type) [AddCommMonoid M] [Module R M]
    (W : WeightSpace) (ambient_fw : BKey → M) : Except Err (Elt R → M) :=
  if W.root_system.dual_side then Except.error Err.UnsupportedOperation
  else Except.ok (module_morphism R M ambient_fw)

/-- The on-basis map of the quotient coercion registered by
`WeightSpace.__init__`: `self.fundamental_weight` consulted at the basis
keys of the extended domain.  At those keys (index-set nodes and "delta")
`fundamental_weight` never fails for the affine non-extended space that
registers the coercion; the error branch is unreachable there and is mapped
to zero. -/
def coercion_on_basis (R : Type) [CommRing R] [DecidableEq R]
    (W : WeightSpace) (k : BKey) : Elt R :=
  match fundamental_weight R W k with
  | Except.ok e => e
  | Except.error _ => 0

/-- The extended weight space over the same root system, the domain of the
quotient coercion (`root_system.weight_space(base_ring, extended=True)`). -/
def extended_of (W : WeightSpace) : WeightSpace :=
  ⟨W.root_system, true⟩

/-- The quotient coercion registered by `WeightSpace.__init__` (spec
section 9 represents registration as an optional homomorphism determined at
construction): present exactly when the type is affine and the space is not
extended, in which case it is the module morphism extending
`self.fundamental_weight` from the basis keys of the extended domain. -/
def registered_coercion (R : Type) [CommRing R] [DecidableEq R]
    (W : WeightSpace) : Option (Elt R → Elt R) :=
  if W.root_system.is_affine && !W.extended then
    Option.some (module_morphism R (Elt R) (coercion_on_basis R W))
  else Option.none

section Helpers

variable {R : Type} [CommRing R] [DecidableEq R]

theorem fundamental_weight_node_mem (W : WeightSpace) {n : ℤ}
    (h : n ∈ W.root_system.index_set) :
    fundamental_weight R W (BKey.node n) = Except.ok (Elt.single (BKey.node n) 1) := by
  simp [fundamental_weight, h]

theorem fundamental_weight_node_ok (W : WeightSpace) {n : ℤ} {e : Elt R}
    (h : fundamental_weight R W (BKey.node n) = Except.ok e) :
    e = Elt.single (BKey.node n) 1 := by
  by_cases hn : n ∈ W.root_system.index_set
  · rw [fundamental_weight_node_mem W hn] at h
    exact (Except.ok.inj h).symm
  · simp [fundamental_weight, hn] at h

theorem sum_of_terms_map_eq (l : List (ℤ × ℤ)) (F : ℤ → Elt R)
    (hf : ∀ p ∈ l, F p.1 = Elt.single (BKey.node p.1) 1) :
    Elt.sum_of_terms (l.map (fun p => (BKey.node p.1, (p.2 : R)))) =
      (l.map (fun p => (p.2 : R) • F p.1)).sum := by
  induction l with
  | nil => rfl
  | cons p t ih =>
      have hp : F p.1 = Elt.single (BKey.node p.1) 1 := hf p (List.mem_cons_self p t)
      have ht : ∀ q ∈ t, F q.1 = Elt.single (BKey.node q.1) 1 :=
        fun q hq => hf q (List.mem_cons_of_mem p hq)
      simp only [List.map_cons, List.sum_cons, Elt.sum_of_terms] at *
      rw [ih ht, hp, Elt.smul_single_one]

theorem module_morphism_single (M : Type) [AddCommMonoid M] [Module R M]
    (f : BKey → M) (k : BKey) :
    module_morphism R M f (Elt.single k (1 : R)) = f k := by
  by_cases h1 : (1 : R) = 0
  · haveI : Subsingleton R := subsingleton_of_zero_eq_one h1.symm
    haveI : Subsingleton M := Module.subsingleton R M
    exact Subsingleton.elim _ _
  · unfold module_morphism
    rw [Elt.supp_single k h1, Finset.sum_singleton, Elt.coeff_single_self, one_smul]

theorem sum_over_left (x y : Elt R) :
    Finset.sum x.supp (fun i => y.coeff i * x.coeff i) =
      Finset.sum (x.supp ∩ y.supp) (fun k => x.coeff k * y.coeff k) := by
  rw [← Finset.sum_subset Finset.inter_subset_left (by
    intro k hk hkn
    have hy : k ∉ y.supp := fun hmem => hkn (Finset.mem_inter.mpr ⟨hk, hmem⟩)
    rw [Elt.coeff_eq_zero_of_not_mem hy, zero_mul])]
  exact Finset.sum_congr rfl (fun k _ => mul_comm _ _)

theorem sum_over_right (x y : Elt R) :
    Finset.sum y.supp (fun i => x.coeff i * y.coeff i) =
      Finset.sum (x.supp ∩ y.supp) (fun k => x.coeff k * y.coeff k) := by
  rw [Finset.inter_comm]
  rw [← Finset.sum_subset Finset.inter_subset_left (by
    intro k hk hkn
    have hx : k ∉ x.supp := fun hmem => hkn (Finset.mem_inter.mpr ⟨hk, hmem⟩)
    rw [Elt.coeff_eq_zero_of_not_mem hx, zero_mul])]

theorem scalar_ok_inter (W : WeightSpace) (x y : Elt R)
    (hb : (coroot_lattice_mem R W.root_system y || coroot_space_mem R W.root_system y) = true) :
    scalar R W x y =
      Except.ok (Finset.sum (x.supp ∩ y.supp) (fun k => x.coeff k * y.coeff k)) := by
  unfold scalar
  rw [hb]
  by_cases hlen : x.supp.card < y.supp.card
  · simp only [Bool.not_true, Bool.false_eq_true, if_false, if_pos hlen]
    rw [sum_over_left]
  · simp only [Bool.not_true, Bool.false_eq_true, if_false, if_neg hlen]
    rw [sum_over_right]

theorem scalar_ok_left (W : WeightSpace) (x y : Elt R)
    (hb : (coroot_lattice_mem R W.root_system y || coroot_space_mem R W.root_system y) = true) :
    scalar R W x y = Except.ok (Finset.sum x.supp (fun i => y.coeff i * x.coeff i)) := by
  rw [scalar_ok_inter W x y hb, sum_over_left]

theorem scalar_ok_right (W : WeightSpace) (x y : Elt R)
    (hb : (coroot_lattice_mem R W.root_system y || coroot_space_mem R W.root_system y) = true) :
    scalar R W x y = Except.ok (Finset.sum y.supp (fun i => x.coeff i * y.coeff i)) := by
  rw [scalar_ok_inter W x y hb, sum_over_right]

theorem bool_or_true {a b : Bool} (h : a = true ∨ b = true) : (a || b) = true := by
  rcases h with h | h <;> simp [h]

theorem bool_and_true {a b : Bool} (h : (a && b) = true) : a = true ∧ b = true := by
  simp only [Bool.and_eq_true] at h
  exact h

/-- Congruence of `List.all` for pointwise equal predicates. -/
theorem list_all_congr {α : Type} (l : List α) (f g : α → Bool)
    (h : ∀ a ∈ l, f a = g a) : l.all f = l.all g := by
  induction l with
  | nil => rfl
  | cons a t ih =>
      simp only [List.all_cons, h a (List.mem_cons_self a t),
        ih (fun b hb => h b (List.mem_cons_of_mem a hb))]

theorem coroot_space_mem_single (rs : RootSystemData) {j : ℤ}
    (hj : j ∈ rs.index_set) (c : R) :
    coroot_space_mem R rs (Elt.single (BKey.node j) c) = true := by
  unfold coroot_space_mem
  apply decide_eq_true
  intro k hk
  have hc := ((Elt.single (BKey.node j) c).mem_supp k).mp hk
  by_cases hkj : k = BKey.node j
  · subst hkj
    simp only [node_keys, List.mem_toFinset, List.mem_map]
    exact ⟨j, hj, rfl⟩
  · rw [Elt.coeff_single] at hc
    simp [hkj] at hc

end Helpers

/-- Claim C1: for every `j` in the index set, `simple_root(j)` is the
linear combination, over the Dynkin diagram column of `j`, of the column
coefficients times the corresponding fundamental weights, with the "delta"
basis monomial added exactly when the space is extended and `j` is the
special node; for every `j` not in the index set, `simple_root(j)` fails
with `InvalidKey`. -/
theorem simple_root_spec (R : Type) [CommRing R] [DecidableEq R]
    (W : WeightSpace) (F : ℤ → Elt R)
    (hF : ∀ j ∈ W.root_system.index_set, ∀ p ∈ W.root_system.column j,
      fundamental_weight R W (BKey.node p.1) = Except.ok (F p.1)) :
    (∀ j, j ∉ W.root_system.index_set → simple_root R W j = Except.error Err.InvalidKey) ∧
    (∀ j ∈ W.root_system.index_set,
      simple_root R W j = Except.ok
        (((W.root_system.column j).map (fun p => (p.2 : R) • F p.1)).sum +
          (if W.extended = true ∧ j = W.root_system.special_node
            then Elt.single BKey.delta 1 else 0))) := by
  constructor
  · intro j hj
    simp [simple_root, hj]
  · intro j hj
    have hsum := sum_of_terms_map_eq (W.root_system.column j) F
      (fun p hp => fundamental_weight_node_ok W (hF j hj p hp))
    by_cases hext : W.extended = true ∧ j = W.root_system.special_node
    · simp only [simple_root, if_pos hj, if_pos hext, hsum]
    · simp only [simple_root, if_pos hj, if_neg hext, hsum, add_zero]

/-- Claim C2: `fundamental_weight("delta")` fails with
`UnsupportedOperation` for a non-affine type, returns the "delta" basis
monomial for an affine extended space and the zero element for an affine
non-extended space; for a node key, it fails with `InvalidKey` when the
node is outside the index set and otherwise returns the basis monomial of
that node. -/
theorem fundamental_weight_spec (R : Type) [CommRing R] [DecidableEq R]
    (W : WeightSpace) :
    (W.root_system.is_affine = false →
      fundamental_weight R W BKey.delta = Except.error Err.UnsupportedOperation) ∧
    (W.root_system.is_affine = true → W.extended = true →
      fundamental_weight R W BKey.delta = Except.ok (Elt.single BKey.delta 1)) ∧
    (W.root_system.is_affine = true → W.extended = false →
      fundamental_weight R W BKey.delta = Except.ok 0) ∧
    (∀ n : ℤ, n ∉ W.root_system.index_set →
      fundamental_weight R W (BKey.node n) = Except.error Err.InvalidKey) ∧
    (∀ n : ℤ, n ∈ W.root_system.index_set →
      fundamental_weight R W (BKey.node n) = Except.ok (Elt.single (BKey.node n) 1)) :=
  ⟨fun h => by simp [fundamental_weight, h],
    fun h1 h2 => by simp [fundamental_weight, h1, h2],
    fun h1 h2 => by simp [fundamental_weight, h1, h2],
    fun n h => by simp [fundamental_weight, h],
    fun _ h => fundamental_weight_node_mem W h⟩

/-- Claim C3: `x.scalar(y)` fails with `InvalidArgument` when `y` belongs
neither to the coroot lattice nor to the coroot space of the parent of `x`;
when `y` belongs to one of them, the result is the sum, over the shared
support keys, of the coefficient of `x` times the coefficient of `y`,
accumulated in the base ring from its zero (keys absent in either operand
contribute nothing). -/
theorem scalar_spec (R : Type) [CommRing R] [DecidableEq R]
    (W : WeightSpace) (x y : Elt R) :
    (coroot_lattice_mem R W.root_system y = false →
      coroot_space_mem R W.root_system y = false →
      scalar R W x y = Except.error Err.InvalidArgument) ∧
    (coroot_lattice_mem R W.root_system y = true ∨
        coroot_space_mem R W.root_system y = true →
      scalar R W x y =
        Except.ok (Finset.sum (x.supp ∩ y.supp) (fun k => x.coeff k * y.coeff k))) := by
  constructor
  · intro h1 h2
    simp [scalar, h1, h2]
  · intro h
    exact scalar_ok_inter W x y (bool_or_true h)

/-- Claim C4: the pairing of the fundamental weights against the simple
coroots is the identity matrix: for `i`, `j` in the index set,
`fundamental_weight(i).scalar(simple_coroot(j))` is `1` when `i = j` and
`0` otherwise. -/
theorem duality_spec (R : Type) [CommRing R] [DecidableEq R] [Nontrivial R]
    (W : WeightSpace) (i j : ℤ)
    (hi : i ∈ W.root_system.index_set) (hj : j ∈ W.root_system.index_set)
    (e : Elt R) (he : fundamental_weight R W (BKey.node i) = Except.ok e) :
    scalar R W e (simple_coroot R j) = Except.ok (if i = j then 1 else 0) := by
  have hE : e = Elt.single (BKey.node i) 1 := fundamental_weight_node_ok W he
  subst hE
  have hb : (coroot_lattice_mem R W.root_system (simple_coroot R j) ||
      coroot_space_mem R W.root_system (simple_coroot R j)) = true :=
    bool_or_true (Or.inr (coroot_space_mem_single W.root_system hj 1))
  rw [scalar_ok_inter W _ _ hb]
  unfold simple_coroot
  rw [Elt.supp_single _ (one_ne_zero), Elt.supp_single _ (one_ne_zero)]
  by_cases hij : i = j
  · subst hij
    simp
  · have hnode : BKey.node i ∉ ({BKey.node j} : Finset BKey) := by
      simp [hij]
    rw [Finset.singleton_inter_of_not_mem hnode]
    simp [hij]

/-- Claim C5: the quotient coercion from the extended space is registered
exactly when the space is non-extended and the type is affine, and it sends
each fundamental weight basis vector of the extended space to the
corresponding fundamental weight of the non-extended space, and the "delta"
basis monomial to zero. -/
theorem quotient_coercion_spec (R : Type) [CommRing R] [DecidableEq R]
    (W : WeightSpace) :
    ((registered_coercion R W).isSome = true ↔
      (W.extended = false ∧ W.root_system.is_affine = true)) ∧
    (∀ φ, registered_coercion R W = Option.some φ →
      (∀ i ∈ W.root_system.index_set, ∀ eE eN : Elt R,
        fundamental_weight R (extended_of W) (BKey.node i) = Except.ok eE →
        fundamental_weight R W (BKey.node i) = Except.ok eN → φ eE = eN) ∧
      φ (Elt.single BKey.delta 1) = 0) := by
  constructor
  · cases hE : W.extended <;> cases hA : W.root_system.is_affine <;>
      simp [registered_coercion, hE, hA]
  · intro φ hφ
    by_cases hc : (W.root_system.is_affine && !W.extended) = true
    · have hA : W.root_system.is_affine = true := (bool_and_true hc).1
      have hE : W.extended = false := by
        have h2 := (bool_and_true hc).2
        cases hx : W.extended
        · rfl
        · rw [hx] at h2
          simp at h2
      have hφ2 : φ = module_morphism R (Elt R) (coercion_on_basis R W) := by
        simp only [registered_coercion] at hφ
        rw [if_pos hc] at hφ
        exact (Option.some.inj hφ).symm
      subst hφ2
      constructor
      · intro i hi eE eN hEE hEN
        have h1 : eE = Elt.single (BKey.node i) 1 := fundamental_weight_node_ok _ hEE
        have h2 : eN = Elt.single (BKey.node i) 1 := fundamental_weight_node_ok W hEN
        subst h1
        subst h2
        rw [module_morphism_single]
        simp [coercion_on_basis, fundamental_weight_node_mem W hi]
      · rw [module_morphism_single]
        simp [coercion_on_basis, fundamental_weight, hA, hE]
    · simp only [registered_coercion] at hφ
      rw [if_neg hc] at hφ
      cases hφ

/-- Claim C6: constructing a `WeightSpace` with `extended = true` fails
with `InvalidConfiguration` when the Cartan type is not affine; on success,
the basis keys are the index set with the key "delta" appended exactly when
`extended` is true. -/
theorem make_spec (rs : RootSystemData) :
    (rs.is_affine = false →
      WeightSpace.make rs true = Except.error Err.InvalidConfiguration) ∧
    (∀ ext W, WeightSpace.make rs ext = Except.ok W →
      W.basis_keys =
        rs.index_set.map BKey.node ++ (if ext = true then [BKey.delta] else [])) := by
  constructor
  · intro h
    simp [WeightSpace.make, h]
  · intro ext W h
    unfold WeightSpace.make at h
    by_cases hc : (ext && !rs.is_affine) = true
    · rw [if_pos hc] at h
      cases h
    · rw [if_neg hc] at h
      have hW : W = ⟨rs, ext⟩ := (Except.ok.inj h).symm
      subst hW
      simp [WeightSpace.basis_keys]

/-- Claim C7: `is_dominant` is true exactly when the coefficient at every
index-set key is nonnegative in the ordering of the base ring, and its
value does not depend on coefficients outside the index-set keys (in
particular the "delta" coefficient is excluded from the check). -/
theorem is_dominant_spec (R : Type) [CommRing R] [DecidableEq R] [LinearOrder R]
    (W : WeightSpace) (x : Elt R) :
    (is_dominant R W x = true ↔
      ∀ i ∈ W.root_system.index_set, 0 ≤ x.coeff (BKey.node i)) ∧
    (∀ y : Elt R,
      (∀ i ∈ W.root_system.index_set, x.coeff (BKey.node i) = y.coeff (BKey.node i)) →
      is_dominant R W x = is_dominant R W y) := by
  constructor
  · simp [is_dominant, List.all_eq_true]
  · intro y hxy
    unfold is_dominant
    exact list_all_congr _ _ _ (fun i hi => by rw [hxy i hi])

/-- Claim C8: the classical projection on a basis key is the zero element
of the classical space when the key is "delta" or the special node, and the
basis monomial of the classical space at that key otherwise. -/
theorem to_classical_spec (R : Type) [CommRing R] [DecidableEq R]
    (W : WeightSpace) :
    to_classical_on_basis R W BKey.delta = 0 ∧
    to_classical_on_basis R W (BKey.node W.root_system.special_node) = 0 ∧
    (∀ n : ℤ, n ≠ W.root_system.special_node →
      to_classical_on_basis R W (BKey.node n) = Elt.single (BKey.node n) 1) := by
  refine ⟨by simp [to_classical_on_basis], by simp [to_classical_on_basis], ?_⟩
  intro n hn
  simp [to_classical_on_basis, hn]

/-- Claim C9: `to_ambient_space_morphism` fails with `UnsupportedOperation`
whenever the model is on the dual (coweight) side; on the direct side it
returns the module morphism sending each basis monomial to the fundamental
weight of the same index in the ambient space. -/
theorem to_ambient_spec (R : Type) [CommRing R] [DecidableEq R]
    (M : Type) [AddCommMonoid M] [Module R M]
    (W : WeightSpace) (ambient_fw : BKey → M) :
    (W.root_system.dual_side = true →
      to_ambient_space_morphism R M W ambient_fw = Except.error Err.UnsupportedOperation) ∧
    (W.root_system.dual_side = false →
      ∃ φ, to_ambient_space_morphism R M W ambient_fw = Except.ok φ ∧
        ∀ n : ℤ, φ (Elt.single (BKey.node n) (1 : R)) = ambient_fw (BKey.node n)) := by
  constructor
  · intro h
    simp [to_ambient_space_morphism, h]
  · intro h
    exact ⟨module_morphism R M ambient_fw, by simp [to_ambient_space_morphism, h],
      fun n => module_morphism_single M ambient_fw (BKey.node n)⟩

/-- Claim C10: when `y` passes the coroot membership test, the two sparse
evaluation branches of `scalar` agree: iterating over the support of `x`
while looking coefficients up in `y` gives the same value as iterating over
the support of `y` while looking coefficients up in `x`, so the result does
not depend on which operand has fewer nonzero entries. -/
theorem scalar_branch_spec (R : Type) [CommRing R] [DecidableEq R]
    (W : WeightSpace) (x y : Elt R)
    (h : coroot_lattice_mem R W.root_system y = true ∨
      coroot_space_mem R W.root_system y = true) :
    scalar R W x y = Except.ok (Finset.sum x.supp (fun i => y.coeff i * x.coeff i)) ∧
    scalar R W x y = Except.ok (Finset.sum y.supp (fun i => x.coeff i * y.coeff i)) :=
  ⟨scalar_ok_left W x y (bool_or_true h),
    scalar_ok_right W x y (bool_or_true h)⟩

/-!
Concrete instances used by the witness theorems: the affine type A1(1)
(Cartan matrix [[2, -2], [-2, 2]], index set {0, 1}, special node 0) and
the finite type A2 (not affine), each as `RootSystemData`, together with
the weight spaces built over them.
-/

/-- Root-system data of the affine Cartan type A1(1): the Dynkin diagram
column of node j lists the nonzero Cartan matrix entries (i, a_ij). -/
def cdA11 : RootSystemData :=
  ⟨[0, 1],
    fun j => if j = 0 then [(0, 2), (1, -2)] else if j = 1 then [(0, -2), (1, 2)] else [],
    0, true, false⟩

/-- Root-system data of the finite Cartan type A2 (not affine). -/
def cdA2 : RootSystemData :=
  ⟨[1, 2],
    fun j => if j = 1 then [(1, 2), (2, -1)] else if j = 2 then [(1, -1), (2, 2)] else [],
    1, false, false⟩

/-- Dual-side (coweight) variant of the affine A1(1) data. -/
def cdA11dual : RootSystemData :=
  ⟨[0, 1],
    fun j => if j = 0 then [(0, 2), (1, -2)] else if j = 1 then [(0, -2), (1, 2)] else [],
    0, true, true⟩

/-- The extended weight lattice of A1(1). -/
def Wext : WeightSpace := ⟨cdA11, true⟩

/-- The non-extended weight lattice of A1(1). -/
def Wnon : WeightSpace := ⟨cdA11, false⟩

/-- The coweight lattice of A1(1) (dual side). -/
def Wdual : WeightSpace := ⟨cdA11dual, false⟩

/-- Every Dynkin diagram column of the A1(1) data has its row indices in
the index set. -/
theorem colmemA11 : ∀ j ∈ cdA11.index_set, ∀ p ∈ cdA11.column j,
    p.1 ∈ cdA11.index_set := by decide

/-- Witness for C1: the simple root at the special node of the extended
A1(1) lattice, with the fundamental-weight hypothesis discharged on the
concrete data. -/
theorem simple_root_spec_witness :
    simple_root ℤ Wext 0 = Except.ok
      (((Wext.root_system.column 0).map
          (fun p => (p.2 : ℤ) • Elt.single (BKey.node p.1) 1)).sum +
        (if Wext.extended = true ∧ (0 : ℤ) = Wext.root_system.special_node
          then Elt.single BKey.delta 1 else 0)) :=
  (simple_root_spec ℤ Wext (fun n => Elt.single (BKey.node n) 1)
    (fun j hj p hp => fundamental_weight_node_mem Wext (colmemA11 j hj p hp))).2 0 (by decide)

/-- Witness for C2: the fundamental weight at node 0 of the extended
A1(1) lattice. -/
theorem fundamental_weight_spec_witness :
    (0 : ℤ) ∈ Wext.root_system.index_set ∧
    fundamental_weight ℤ Wext (BKey.node 0) = Except.ok (Elt.single (BKey.node 0) 1) :=
  ⟨by decide, (fundamental_weight_spec ℤ Wext).2.2.2.2 0 (by decide)⟩

/-- Witness for C3: both branches of the pairing contract at concrete
elements, the membership branch and the failure branch. -/
theorem scalar_spec_witness :
    (scalar ℤ Wnon (Elt.single (BKey.node 0) 2) (Elt.single (BKey.node 0) 3) =
      Except.ok (Finset.sum
        ((Elt.single (BKey.node 0) (2 : ℤ)).supp ∩ (Elt.single (BKey.node 0) (3 : ℤ)).supp)
        (fun k => (Elt.single (BKey.node 0) (2 : ℤ)).coeff k *
          (Elt.single (BKey.node 0) (3 : ℤ)).coeff k))) ∧
    scalar ℤ Wnon (Elt.single (BKey.node 0) 2) (Elt.single BKey.delta 1) =
      Except.error Err.InvalidArgument :=
  ⟨(scalar_spec ℤ Wnon _ _).2 (Or.inr (by decide)),
    (scalar_spec ℤ Wnon _ _).1 (by decide) (by decide)⟩

/-- Witness for C4: the pairing of fundamental weight 0 against simple
coroot 1 in the A1(1) weight lattice. -/
theorem duality_spec_witness :
    scalar ℤ Wnon (Elt.single (BKey.node 0) 1) (simple_coroot ℤ 1) =
      Except.ok (if (0 : ℤ) = 1 then 1 else 0) :=
  duality_spec ℤ Wnon 0 1 (by decide) (by decide) _
    (fundamental_weight_node_mem Wnon (by decide))

/-- Witness for C5: the registered quotient coercion of the non-extended
A1(1) lattice kills the "delta" monomial. -/
theorem quotient_coercion_spec_witness :
    ∃ φ, registered_coercion ℤ Wnon = Option.some φ ∧
      φ (Elt.single BKey.delta 1) = 0 :=
  ⟨module_morphism ℤ (Elt ℤ) (coercion_on_basis ℤ Wnon), rfl,
    ((quotient_coercion_spec ℤ Wnon).2 _ rfl).2⟩

/-- Witness for C6: building an extended space over the finite type A2
fails, and the basis keys of the extended A1(1) lattice end in "delta". -/
theorem make_spec_witness :
    WeightSpace.make cdA2 true = Except.error Err.InvalidConfiguration ∧
    Wext.basis_keys =
      cdA11.index_set.map BKey.node ++ (if true = true then [BKey.delta] else []) :=
  ⟨(make_spec cdA2).1 rfl, (make_spec cdA11).2 true Wext rfl⟩

/-- Witness for C7: subtracting "delta" does not change dominance. -/
theorem is_dominant_spec_witness :
    is_dominant ℤ Wext (Elt.single (BKey.node 0) 1) =
      is_dominant ℤ Wext (Elt.single (BKey.node 0) 1 + Elt.single BKey.delta (-1)) :=
  (is_dominant_spec ℤ Wext _).2 _ (by decide)

/-- Witness for C8: the classical projection of the non-special node 1 of
A1(1) is the basis monomial of node 1. -/
theorem to_classical_spec_witness :
    (1 : ℤ) ≠ Wext.root_system.special_node ∧
    to_classical_on_basis ℤ Wext (BKey.node 1) = Elt.single (BKey.node 1) 1 :=
  ⟨by decide, (to_classical_spec ℤ Wext).2.2 1 (by decide)⟩

/-- Witness for C9: the ambient morphism exists on the direct side and
fails on the dual side, at a concrete ambient family over the integers. -/
theorem to_ambient_spec_witness :
    (∃ φ, to_ambient_space_morphism ℤ ℤ Wnon (fun _ => (5 : ℤ)) = Except.ok φ ∧
      ∀ n : ℤ, φ (Elt.single (BKey.node n) (1 : ℤ)) =
        (fun _ : BKey => (5 : ℤ)) (BKey.node n)) ∧
    to_ambient_space_morphism ℤ ℤ Wdual (fun _ => (5 : ℤ)) =
      Except.error Err.UnsupportedOperation :=
  ⟨(to_ambient_spec ℤ ℤ Wnon (fun _ => (5 : ℤ))).2 rfl,
    (to_ambient_spec ℤ ℤ Wdual (fun _ => (5 : ℤ))).1 rfl⟩

/-- Witness for C10: both sparse evaluation orders of the pairing agree at
concrete elements. -/
theorem scalar_branch_spec_witness :
    scalar ℤ Wnon (Elt.single (BKey.node 1) 4) (Elt.single (BKey.node 1) 5) =
      Except.ok (Finset.sum (Elt.single (BKey.node 1) (4 : ℤ)).supp
        (fun i => (Elt.single (BKey.node 1) (5 : ℤ)).coeff i *
          (Elt.single (BKey.node 1) (4 : ℤ)).coeff i)) :=
  (scalar_branch_spec ℤ Wnon _ _ (Or.inr (by decide))).1
